import Mathlib

set_option maxRecDepth 4000

/-!
Verification development for the project-manifest patcher script
`ios-app/add-files-to-xcode.py`.

The script is embedded shallowly: manifest text is a `List Char`, the
filesystem is an existence oracle `List Char → Bool`, the random source
behind `uuid.uuid4()` is a stream `Nat → Nat`, and each of the three
`re.sub` calls of the script is modelled by an executable Lean function
with Python's leftmost, non-overlapping, greedy-with-backtracking
semantics for the patterns actually used.
-/

namespace XcodePatch

/-- The characters of a string literal. -/
def lstr (s : String) : List Char := s.data

/-- Boolean test: the first list is an initial segment of the second
(Python `startswith`, used to implement substring search). -/
def pfx : List Char → List Char → Bool
  | [], _ => true
  | _ :: _, [] => false
  | a :: as, b :: bs => a == b && pfx as bs

/-- Boolean substring test: Python's `pat in s`. -/
def occurs (pat : List Char) : List Char → Bool
  | [] => pat.isEmpty
  | c :: cs => pfx pat (c :: cs) || occurs pat cs

/-- One step of `re.sub` with a literal pattern: fuel-indexed so that the
definition is structural and computes in the kernel.  Scans left to right;
at each match the whole match is replaced by `rep` and scanning resumes
after the matched text (Python's non-overlapping semantics). -/
def replaceAllAux (pat rep : List Char) : Nat → List Char → List Char
  | _, [] => []
  | 0, s => s
  | fuel + 1, c :: cs =>
    if pfx pat (c :: cs) then rep ++ replaceAllAux pat rep fuel (cs.drop (pat.length - 1))
    else c :: replaceAllAux pat rep fuel cs

/-- `re.sub` with a literal pattern (all occurrences, left to right,
non-overlapping). -/
def replaceAll (pat rep s : List Char) : List Char :=
  replaceAllAux pat rep s.length s

/-- Position of the first occurrence of `pat`: `some (before, after)`
splits the string around the first match. -/
def splitFirst (pat : List Char) : List Char → Option (List Char × List Char)
  | [] => none
  | c :: cs =>
    if pfx pat (c :: cs) then some ([], cs.drop (pat.length - 1))
    else
      match splitFirst pat cs with
      | some (a, b) => some (c :: a, b)
      | none => none

/- ### Basic facts about `pfx` and `occurs`. -/

theorem pfx_iff_append (p : List Char) : ∀ s, pfx p s = true ↔ ∃ t, s = p ++ t := by
  induction p with
  | nil => intro s; simp [pfx]
  | cons a as ih =>
    intro s
    cases s with
    | nil => simp [pfx]
    | cons b bs =>
      simp only [pfx, Bool.and_eq_true, beq_iff_eq]
      constructor
      · rintro ⟨rfl, h⟩
        obtain ⟨t, rfl⟩ := (ih bs).mp h
        exact ⟨t, rfl⟩
      · rintro ⟨t, ht⟩
        simp only [List.cons_append, List.cons.injEq] at ht
        obtain ⟨rfl, rfl⟩ := ht
        exact ⟨rfl, (ih _).mpr ⟨t, rfl⟩⟩

theorem pfx_append_self (p t : List Char) : pfx p (p ++ t) = true :=
  (pfx_iff_append p _).mpr ⟨t, rfl⟩

theorem pfx_refl (p : List Char) : pfx p p = true := by
  simpa using pfx_append_self p []

theorem pfx_mono {p a : List Char} (b : List Char) (h : pfx p a = true) :
    pfx p (a ++ b) = true := by
  obtain ⟨t, rfl⟩ := (pfx_iff_append p a).mp h
  rw [List.append_assoc]
  exact pfx_append_self p _

theorem pfx_head_ne {a b : Char} {as bs : List Char} (h : a ≠ b) :
    pfx (a :: as) (b :: bs) = false := by
  simp [pfx, h]

theorem occurs_nil_pat : ∀ s, occurs [] s = true
  | [] => rfl
  | _ :: _ => by simp [occurs, pfx]

theorem occurs_append_left {fn : List Char} (x : List Char) {t : List Char}
    (h : occurs fn t = true) : occurs fn (x ++ t) = true := by
  induction x with
  | nil => simpa using h
  | cons c cs ih => simp [occurs, ih]

theorem occurs_of_pfx {fn s : List Char} (h : pfx fn s = true) : occurs fn s = true := by
  cases s with
  | nil =>
    cases fn with
    | nil => rfl
    | cons a as => simp [pfx] at h
  | cons c cs => simp [occurs, h]

theorem occurs_append_right {fn x : List Char} (t : List Char)
    (h : occurs fn x = true) : occurs fn (x ++ t) = true := by
  induction x with
  | nil =>
    simp [occurs] at h
    subst h
    exact occurs_nil_pat t
  | cons c cs ih =>
    simp only [occurs, Bool.or_eq_true] at h
    rcases h with h | h
    · exact occurs_of_pfx (by simpa using pfx_mono t h)
    · simp [occurs, ih h]

theorem occurs_self_append (fn y : List Char) : occurs fn (fn ++ y) = true :=
  occurs_of_pfx (pfx_append_self fn y)

theorem occurs_middle (fn x y : List Char) : occurs fn (x ++ fn ++ y) = true := by
  rw [List.append_assoc]
  exact occurs_append_left x (occurs_self_append fn y)

theorem occurs_of_pfx_drop {p s : List Char} {j : Nat}
    (h : pfx p (s.drop j) = true) : occurs p s = true := by
  induction s generalizing j with
  | nil =>
    simp only [List.drop_nil] at h
    exact occurs_of_pfx h
  | cons c cs ih =>
    cases j with
    | zero => exact occurs_of_pfx h
    | succ j =>
      simp only [List.drop_succ_cons] at h
      simp [occurs, ih h]

theorem occurs_exists {pat s : List Char} (h : occurs pat s = true) :
    ∃ x y, s = x ++ pat ++ y := by
  induction s with
  | nil =>
    simp [occurs, List.isEmpty_iff] at h
    subst h
    exact ⟨[], [], rfl⟩
  | cons c cs ih =>
    simp only [occurs, Bool.or_eq_true] at h
    rcases h with h | h
    · obtain ⟨t, ht⟩ := (pfx_iff_append pat _).mp h
      exact ⟨[], t, by simpa using ht⟩
    · obtain ⟨x, y, hxy⟩ := ih h
      exact ⟨c :: x, y, by simp [hxy]⟩

theorem occurs_of_decomp {pat s x y : List Char} (h : s = x ++ pat ++ y) :
    occurs pat s = true := h ▸ occurs_middle pat x y

/- ### Fuel invariance and structural facts about `replaceAll`. -/

theorem replaceAllAux_congr (pat rep : List Char) :
    ∀ f g s, s.length ≤ f → s.length ≤ g →
      replaceAllAux pat rep f s = replaceAllAux pat rep g s := by
  intro f
  induction f with
  | zero =>
    intro g s hf _
    have : s = [] := List.eq_nil_of_length_eq_zero (Nat.le_zero.mp hf)
    subst this
    cases g <;> rfl
  | succ f ih =>
    intro g s hf hg
    cases s with
    | nil => cases g <;> rfl
    | cons c cs =>
      cases g with
      | zero => simp at hg
      | succ g =>
        simp only [List.length_cons, Nat.succ_le_succ_iff] at hf hg
        simp only [replaceAllAux]
        by_cases h : pfx pat (c :: cs) = true
        · rw [if_pos h, if_pos h]
          have hlen : (cs.drop (pat.length - 1)).length ≤ cs.length := by
            rw [List.length_drop]; exact Nat.sub_le _ _
          rw [ih g _ (le_trans hlen hf) (le_trans hlen hg)]
        · rw [if_neg h, if_neg h, ih g cs hf hg]

theorem replaceAllAux_eq (pat rep : List Char) {f : Nat} {s : List Char}
    (h : s.length ≤ f) : replaceAllAux pat rep f s = replaceAll pat rep s :=
  replaceAllAux_congr pat rep f s.length s h (Nat.le_refl _)

theorem replaceAll_nil (pat rep : List Char) : replaceAll pat rep [] = [] := rfl

/-- If the pattern does not occur, literal substitution is the identity. -/
theorem replaceAll_no_occurs {pat : List Char} (rep : List Char) :
    ∀ s, occurs pat s = false → replaceAll pat rep s = s := by
  have aux : ∀ f s, s.length ≤ f → occurs pat s = false →
      replaceAllAux pat rep f s = s := by
    intro f
    induction f with
    | zero =>
      intro s hf _
      have : s = [] := List.eq_nil_of_length_eq_zero (Nat.le_zero.mp hf)
      subst this; rfl
    | succ f ih =>
      intro s hf hocc
      cases s with
      | nil => rfl
      | cons c cs =>
        simp only [occurs, Bool.or_eq_false_iff] at hocc
        simp only [List.length_cons, Nat.succ_le_succ_iff] at hf
        simp only [replaceAllAux]
        rw [if_neg (by simp [hocc.1])]
        rw [ih cs hf hocc.2]
  intro s h
  exact aux s.length s (Nat.le_refl _) h

theorem splitFirst_decomp {pat : List Char} (hp : pat ≠ []) :
    ∀ {s a b : List Char}, splitFirst pat s = some (a, b) → s = a ++ pat ++ b := by
  intro s
  induction s with
  | nil => intro a b h; simp [splitFirst] at h
  | cons c cs ih =>
    intro a b h
    by_cases hpf : pfx pat (c :: cs) = true
    · simp only [splitFirst, if_pos hpf, Option.some.injEq, Prod.mk.injEq] at h
      obtain ⟨rfl, rfl⟩ := h
      obtain ⟨t, ht⟩ := (pfx_iff_append pat _).mp hpf
      cases pat with
      | nil => exact absurd rfl hp
      | cons p ps =>
        simp only [List.cons_append, List.cons.injEq] at ht
        obtain ⟨rfl, hcs⟩ := ht
        subst hcs
        simp only [List.length_cons, Nat.add_sub_cancel, List.nil_append, List.cons_append,
          List.drop_left]
    · simp only [splitFirst, if_neg hpf] at h
      cases hsp : splitFirst pat cs with
      | none => rw [hsp] at h; simp at h
      | some ab =>
        obtain ⟨a', b'⟩ := ab
        rw [hsp] at h
        simp only [Option.some.injEq, Prod.mk.injEq] at h
        obtain ⟨rfl, rfl⟩ := h
        have := ih hsp
        simp [this]

theorem occurs_splitFirst {pat : List Char} :
    ∀ {s : List Char}, occurs pat s = true → pat ≠ [] →
      ∃ a b, splitFirst pat s = some (a, b) := by
  intro s
  induction s with
  | nil =>
    intro h hp
    simp [occurs, List.isEmpty_iff] at h
    exact absurd h hp
  | cons c cs ih =>
    intro h hp
    by_cases hpf : pfx pat (c :: cs) = true
    · exact ⟨[], cs.drop (pat.length - 1), by simp [splitFirst, hpf]⟩
    · simp only [occurs, Bool.or_eq_true] at h
      rcases h with h | h
      · exact absurd h hpf
      · obtain ⟨a, b, hab⟩ := ih h hp
        exact ⟨c :: a, b, by simp [splitFirst, hpf, hab]⟩

/-- Substitution around the first occurrence of the pattern. -/
theorem replaceAll_split {pat : List Char} (rep : List Char)
    {s a b : List Char} (h : splitFirst pat s = some (a, b)) :
    replaceAll pat rep s = a ++ rep ++ replaceAll pat rep b := by
  have aux : ∀ f s a b, s.length ≤ f → splitFirst pat s = some (a, b) →
      replaceAllAux pat rep f s = a ++ rep ++ replaceAll pat rep b := by
    intro f
    induction f with
    | zero =>
      intro s a b hf hsp
      have : s = [] := List.eq_nil_of_length_eq_zero (Nat.le_zero.mp hf)
      subst this; simp [splitFirst] at hsp
    | succ f ih =>
      intro s a b hf hsp
      cases s with
      | nil => simp [splitFirst] at hsp
      | cons c cs =>
        simp only [List.length_cons, Nat.succ_le_succ_iff] at hf
        by_cases hpf : pfx pat (c :: cs) = true
        · simp only [splitFirst, if_pos hpf, Option.some.injEq, Prod.mk.injEq] at hsp
          obtain ⟨rfl, rfl⟩ := hsp
          simp only [replaceAllAux, if_pos hpf]
          have hlen : (cs.drop (pat.length - 1)).length ≤ cs.length := by
            rw [List.length_drop]; exact Nat.sub_le _ _
          rw [replaceAllAux_eq pat rep (le_trans hlen hf)]
          simp
        · simp only [splitFirst, if_neg hpf] at hsp
          cases hsp2 : splitFirst pat cs with
          | none => rw [hsp2] at hsp; simp at hsp
          | some ab =>
            obtain ⟨a', b'⟩ := ab
            rw [hsp2] at hsp
            simp only [Option.some.injEq, Prod.mk.injEq] at hsp
            obtain ⟨ha, hb⟩ := hsp
            subst ha
            subst hb
            simp only [replaceAllAux, if_neg hpf]
            rw [ih cs a' b' hf hsp2]
            simp
  exact aux s.length s a b (Nat.le_refl _) h

/-- Self-preservation: replacing `pat` by `rep ++ pat` keeps `pat` present. -/
theorem replaceAll_keeps_pat {pat : List Char} (rep : List Char) (hp : pat ≠ [])
    {s : List Char} (h : occurs pat s = true) :
    occurs pat (replaceAll pat (rep ++ pat) s) = true := by
  obtain ⟨a, b, hab⟩ := occurs_splitFirst h hp
  rw [replaceAll_split (rep ++ pat) hab]
  exact occurs_of_decomp (x := a ++ rep) (y := replaceAll pat (rep ++ pat) b) (by simp)

/-- The replacement text shows up whenever the pattern fires at least once. -/
theorem replaceAll_puts_rep {pat : List Char} (rep : List Char) (hp : pat ≠ [])
    {s fn : List Char} (h : occurs pat s = true) (hfn : occurs fn rep = true) :
    occurs fn (replaceAll pat (rep ++ pat) s) = true := by
  obtain ⟨a, b, hab⟩ := occurs_splitFirst h hp
  rw [replaceAll_split (rep ++ pat) hab]
  obtain ⟨x, y, hxy⟩ := occurs_exists hfn
  refine occurs_of_decomp (x := a ++ x)
    (y := y ++ (pat ++ replaceAll pat (rep ++ pat) b)) ?_
  rw [hxy]
  simp

/- ### The `Sources` build-phase regex.

The script's third substitution uses the Python regex
`(/\* Sources \*/ = \{[^}]*files = \()([^)]*)` with replacement
`\1\2<inserted reference>`.  `srcL1` and `srcL2` are the two literal parts;
`[^}]*` is greedy with backtracking, so the engine picks the largest
stretch of non-`}` characters after `srcL1` that is followed by `srcL2`;
`[^)]*` then takes the maximal run of non-`)` characters. -/

/-- Literal head of the Sources pattern: `/* Sources */ = {`. -/
def srcL1 : List Char := lstr "/* Sources */ = \x7b"

/-- Literal middle of the Sources pattern: `files = (`. -/
def srcL2 : List Char := lstr "files = ("

/-- Largest `k ≤ m` such that `srcL2` starts at offset `k` of `t`
(the backtracking search of the greedy `[^}]*`). -/
def findLastL2 (t : List Char) : Nat → Option Nat
  | 0 => if pfx srcL2 t then some 0 else none
  | k + 1 => if pfx srcL2 (t.drop (k + 1)) then some (k + 1) else findLastL2 t k

/-- Length of the match of the full Sources pattern at the head of `s`,
if it matches there. -/
def sourcesMatchLen (s : List Char) : Option Nat :=
  if pfx srcL1 s then
    match findLastL2 (s.drop srcL1.length)
        (((s.drop srcL1.length).takeWhile (fun c => !(c == '\x7d'))).length) with
    | some k =>
      some (srcL1.length + k + srcL2.length +
        (((s.drop srcL1.length).drop (k + srcL2.length)).takeWhile
          (fun c => !(c == ')'))).length)
    | none => none
  else none

/-- `re.sub` for the Sources pattern with replacement `match ++ ins`
(the script's replacement keeps groups 1 and 2 and appends the new list
entry); fuel-indexed for structural recursion. -/
def sourcesSubAux (ins : List Char) : Nat → List Char → List Char
  | _, [] => []
  | 0, s => s
  | fuel + 1, c :: cs =>
    match sourcesMatchLen (c :: cs) with
    | some n => (c :: cs).take n ++ ins ++ sourcesSubAux ins fuel ((c :: cs).drop n)
    | none => c :: sourcesSubAux ins fuel cs

/-- The script's third substitution. -/
def sourcesSub (ins s : List Char) : List Char :=
  sourcesSubAux ins s.length s

/-- Does the Sources pattern match anywhere in `s`? -/
def hasSourcesMatch : List Char → Bool
  | [] => false
  | c :: cs => (sourcesMatchLen (c :: cs)).isSome || hasSourcesMatch cs

/-- Split around the first match of the Sources pattern: the first
component includes the matched text. -/
def sourcesFind : List Char → Option (List Char × List Char)
  | [] => none
  | c :: cs =>
    match sourcesMatchLen (c :: cs) with
    | some n => some ((c :: cs).take n, (c :: cs).drop n)
    | none =>
      match sourcesFind cs with
      | some (a, b) => some (c :: a, b)
      | none => none

theorem sourcesMatchLen_pos {s : List Char} {n : Nat}
    (h : sourcesMatchLen s = some n) : srcL1.length ≤ n := by
  unfold sourcesMatchLen at h
  by_cases h1 : pfx srcL1 s = true
  · rw [if_pos h1] at h
    cases hf : findLastL2 (s.drop srcL1.length)
        (((s.drop srcL1.length).takeWhile (fun c => !(c == '\x7d'))).length) with
    | none => rw [hf] at h; simp at h
    | some k =>
      rw [hf] at h
      simp only [Option.some.injEq] at h
      omega
  · rw [if_neg h1] at h; simp at h

theorem sourcesMatchLen_nil : sourcesMatchLen [] = none := by
  unfold sourcesMatchLen
  rw [if_neg]
  simp [srcL1, lstr, pfx]

theorem dropWhile_head_not (p : Char → Bool) :
    ∀ l : List Char, l.dropWhile p = [] ∨
      ∃ c cs, l.dropWhile p = c :: cs ∧ p c = false := by
  intro l
  induction l with
  | nil => exact Or.inl rfl
  | cons a as ih =>
    by_cases h : p a = true
    · simpa [List.dropWhile_cons, h] using ih
    · right
      refine ⟨a, as, by simp [List.dropWhile_cons, h], by simpa using h⟩

theorem drop_takeWhile_length (p : Char → Bool) (u : List Char) :
    u.drop ((u.takeWhile p).length) = u.dropWhile p := by
  have hsplit : u.takeWhile p ++ u.dropWhile p = u :=
    List.takeWhile_append_dropWhile p u
  have h := List.drop_left (u.takeWhile p) (u.dropWhile p)
  rw [hsplit] at h
  exact h

/-- The character right after the matched text, if any, is `)`. -/
theorem sourcesMatchLen_next {s : List Char} {n : Nat}
    (h : sourcesMatchLen s = some n) :
    s.drop n = [] ∨ ∃ ds, s.drop n = ')' :: ds := by
  unfold sourcesMatchLen at h
  by_cases h1 : pfx srcL1 s = true
  · rw [if_pos h1] at h
    cases hf : findLastL2 (s.drop srcL1.length)
        (((s.drop srcL1.length).takeWhile (fun c => !(c == '\x7d'))).length) with
    | none => rw [hf] at h; simp at h
    | some k =>
      rw [hf] at h
      simp only [Option.some.injEq] at h
      subst h
      set u := (s.drop srcL1.length).drop (k + srcL2.length) with hu
      have harr : s.drop (srcL1.length + k + srcL2.length +
          (u.takeWhile (fun c => !(c == ')'))).length)
          = u.drop ((u.takeWhile (fun c => !(c == ')'))).length) := by
        rw [hu, List.drop_drop, List.drop_drop]
        congr 1
      rw [harr, drop_takeWhile_length]
      rcases dropWhile_head_not (fun c => !(c == ')')) u with h0 | ⟨d, ds, hd, hp⟩
      · exact Or.inl h0
      · have hd' : d = ')' := by simpa using hp
        subst hd'
        exact Or.inr ⟨ds, hd⟩
  · rw [if_neg h1] at h
    simp at h

theorem sourcesSubAux_congr (ins : List Char) :
    ∀ f g s, s.length ≤ f → s.length ≤ g →
      sourcesSubAux ins f s = sourcesSubAux ins g s := by
  intro f
  induction f with
  | zero =>
    intro g s hf _
    have : s = [] := List.eq_nil_of_length_eq_zero (Nat.le_zero.mp hf)
    subst this
    cases g <;> rfl
  | succ f ih =>
    intro g s hf hg
    cases s with
    | nil => cases g <;> rfl
    | cons c cs =>
      cases g with
      | zero => simp at hg
      | succ g =>
        simp only [List.length_cons, Nat.succ_le_succ_iff] at hf hg
        cases hm : sourcesMatchLen (c :: cs) with
        | none =>
          simp only [sourcesSubAux, hm]
          rw [ih g cs hf hg]
        | some n =>
          simp only [sourcesSubAux, hm]
          have hn : 1 ≤ n := le_trans (by simp [srcL1, lstr]) (sourcesMatchLen_pos hm)
          have hlen : ((c :: cs).drop n).length ≤ cs.length := by
            rw [List.length_drop]
            simp only [List.length_cons]
            omega
          rw [ih g _ (le_trans hlen hf) (le_trans hlen hg)]

theorem sourcesSubAux_eq (ins : List Char) {f : Nat} {s : List Char}
    (h : s.length ≤ f) : sourcesSubAux ins f s = sourcesSub ins s :=
  sourcesSubAux_congr ins f s.length s h (Nat.le_refl _)

/-- If the Sources pattern matches nowhere, the substitution is the identity. -/
theorem sourcesSub_no_match (ins : List Char) :
    ∀ s, hasSourcesMatch s = false → sourcesSub ins s = s := by
  have aux : ∀ f s, s.length ≤ f → hasSourcesMatch s = false →
      sourcesSubAux ins f s = s := by
    intro f
    induction f with
    | zero =>
      intro s hf _
      have : s = [] := List.eq_nil_of_length_eq_zero (Nat.le_zero.mp hf)
      subst this; rfl
    | succ f ih =>
      intro s hf h
      cases s with
      | nil => rfl
      | cons c cs =>
        simp only [hasSourcesMatch, Bool.or_eq_false_iff] at h
        simp only [List.length_cons, Nat.succ_le_succ_iff] at hf
        cases hsm : sourcesMatchLen (c :: cs) with
        | some n => rw [hsm] at h; simp at h
        | none =>
          simp only [sourcesSubAux, hsm]
          rw [ih cs hf h.2]
  intro s h
  exact aux s.length s (Nat.le_refl _) h

/-- Substitution around the first match of the Sources pattern. -/
theorem sourcesSub_split (ins : List Char) :
    ∀ {s a b : List Char}, sourcesFind s = some (a, b) →
      sourcesSub ins s = a ++ ins ++ sourcesSub ins b := by
  have aux : ∀ f s a b, s.length ≤ f → sourcesFind s = some (a, b) →
      sourcesSubAux ins f s = a ++ ins ++ sourcesSub ins b := by
    intro f
    induction f with
    | zero =>
      intro s a b hf hsp
      have : s = [] := List.eq_nil_of_length_eq_zero (Nat.le_zero.mp hf)
      subst this; simp [sourcesFind] at hsp
    | succ f ih =>
      intro s a b hf hsp
      cases s with
      | nil => simp [sourcesFind] at hsp
      | cons c cs =>
        simp only [List.length_cons, Nat.succ_le_succ_iff] at hf
        cases hm : sourcesMatchLen (c :: cs) with
        | some n =>
          simp only [sourcesFind, hm, Option.some.injEq, Prod.mk.injEq] at hsp
          obtain ⟨ha, hb⟩ := hsp
          subst ha
          subst hb
          simp only [sourcesSubAux, hm]
          have hn : 1 ≤ n := le_trans (by simp [srcL1, lstr]) (sourcesMatchLen_pos hm)
          have hlen : ((c :: cs).drop n).length ≤ cs.length := by
            rw [List.length_drop]
            simp only [List.length_cons]
            omega
          rw [sourcesSubAux_eq ins (le_trans hlen hf)]
        | none =>
          simp only [sourcesFind, hm] at hsp
          cases hsp2 : sourcesFind cs with
          | none => rw [hsp2] at hsp; simp at hsp
          | some ab =>
            obtain ⟨a', b'⟩ := ab
            rw [hsp2] at hsp
            simp only [Option.some.injEq, Prod.mk.injEq] at hsp
            obtain ⟨ha, hb⟩ := hsp
            subst ha
            subst hb
            simp only [sourcesSubAux, hm]
            rw [ih cs a' b' hf hsp2]
            simp
  intro s a b h
  exact aux s.length s a b (Nat.le_refl _) h

theorem sourcesFind_decomp :
    ∀ {s a b : List Char}, sourcesFind s = some (a, b) → s = a ++ b := by
  intro s
  induction s with
  | nil => intro a b h; simp [sourcesFind] at h
  | cons c cs ih =>
    intro a b h
    cases hm : sourcesMatchLen (c :: cs) with
    | some n =>
      simp only [sourcesFind, hm, Option.some.injEq, Prod.mk.injEq] at h
      obtain ⟨ha, hb⟩ := h
      subst ha
      subst hb
      rw [List.take_append_drop]
    | none =>
      simp only [sourcesFind, hm] at h
      cases hsp : sourcesFind cs with
      | none => rw [hsp] at h; simp at h
      | some ab =>
        obtain ⟨a', b'⟩ := ab
        rw [hsp] at h
        simp only [Option.some.injEq, Prod.mk.injEq] at h
        obtain ⟨ha, hb⟩ := h
        subst ha
        subst hb
        simp [ih hsp]

/- ### Insertion-only transformations.

Both kinds of substitution the script performs only insert blocks of text:
a block is inserted either at the end of the string or at a position whose
following original character satisfies `P` (the head of the literal marker
for the first two substitutions, `)` for the Sources substitution).
`InsOnly P s t` expresses that `t` is `s` with such insertions. -/

inductive InsOnly (P : Char → Prop) : List Char → List Char → Prop
  | keepNil : InsOnly P [] []
  | keep (c : Char) {s t : List Char} : InsOnly P s t → InsOnly P (c :: s) (c :: t)
  | put (b : List Char) {c : Char} {s t : List Char} :
      P c → InsOnly P (c :: s) t → InsOnly P (c :: s) (b ++ t)
  | putEnd (b : List Char) : InsOnly P [] b

theorem InsOnly.append_keep {P : Char → Prop} {s t : List Char}
    (x : List Char) (h : InsOnly P s t) : InsOnly P (x ++ s) (x ++ t) := by
  induction x with
  | nil => simpa using h
  | cons c cs ih => exact InsOnly.keep c ih

theorem InsOnly.pfx_kept {P : Char → Prop} {s t : List Char}
    (h : InsOnly P s t) :
    ∀ {fn : List Char}, (∀ c, c ∈ fn → ¬ P c) → pfx fn s = true → pfx fn t = true := by
  induction h with
  | keepNil => intro fn _ hp; exact hp
  | keep c h ih =>
    intro fn hP hp
    cases fn with
    | nil => rfl
    | cons f fr =>
      simp only [pfx, Bool.and_eq_true, beq_iff_eq] at hp ⊢
      exact ⟨hp.1, ih (fun c hc => hP c (List.mem_cons_of_mem _ hc)) hp.2⟩
  | put b hc h ih =>
    intro fn hP hp
    cases fn with
    | nil => cases b <;> rfl
    | cons f fr =>
      simp only [pfx, Bool.and_eq_true, beq_iff_eq] at hp
      exact absurd (hp.1 ▸ hc) (hP f (List.mem_cons_self f fr))
  | putEnd b =>
    intro fn _ hp
    cases fn with
    | nil => cases b <;> rfl
    | cons f fr => simp [pfx] at hp

/-- An occurrence of `fn` survives insertion-only edits provided no
character of `fn` can sit immediately after an insertion point. -/
theorem InsOnly.occurs_kept {P : Char → Prop} {s t : List Char}
    (h : InsOnly P s t) {fn : List Char} (hP : ∀ c, c ∈ fn → ¬ P c)
    (hocc : occurs fn s = true) : occurs fn t = true := by
  induction h with
  | keepNil => exact hocc
  | keep c h ih =>
    simp only [occurs, Bool.or_eq_true] at hocc
    rcases hocc with hocc | hocc
    · exact occurs_of_pfx ((InsOnly.keep c h).pfx_kept hP hocc)
    · have := ih hocc
      cases fn with
      | nil => exact occurs_nil_pat _
      | cons f fr => simp [occurs, this]
  | put b hc h ih => exact occurs_append_left b (ih hocc)
  | putEnd b =>
    simp only [occurs, List.isEmpty_iff] at hocc
    subst hocc
    exact occurs_nil_pat b

/-- A literal substitution `pat ↦ rep ++ pat` only inserts blocks, each
followed by the head character of `pat`. -/
theorem replaceAll_insOnly (h0 : Char) (pt rep : List Char) :
    ∀ s, InsOnly (fun c => c = h0) s (replaceAll (h0 :: pt) (rep ++ (h0 :: pt)) s) := by
  have aux : ∀ f s, s.length ≤ f →
      InsOnly (fun c => c = h0) s (replaceAllAux (h0 :: pt) (rep ++ (h0 :: pt)) f s) := by
    intro f
    induction f with
    | zero =>
      intro s hf
      have : s = [] := List.eq_nil_of_length_eq_zero (Nat.le_zero.mp hf)
      subst this
      exact InsOnly.keepNil
    | succ f ih =>
      intro s hf
      cases s with
      | nil => exact InsOnly.keepNil
      | cons c cs =>
        simp only [List.length_cons, Nat.succ_le_succ_iff] at hf
        by_cases hpf : pfx (h0 :: pt) (c :: cs) = true
        · simp only [replaceAllAux, if_pos hpf]
          obtain ⟨t, ht⟩ := (pfx_iff_append _ _).mp hpf
          have hc : c = h0 := by
            simpa using congrArg (fun l => l.headI) ht
          have hdrop : cs.drop ((h0 :: pt).length - 1) = t := by
            have : cs = pt ++ t := by
              simpa using congrArg (fun l => l.tail) ht
            rw [this]
            simp [List.drop_left']
          rw [List.append_assoc]
          refine InsOnly.put rep (by exact hc) ?_
          rw [ht, hdrop]
          have htf : t.length ≤ f := by
            have : cs = pt ++ t := by
              simpa using congrArg (fun l => l.tail) ht
            rw [this] at hf
            simp at hf
            omega
          exact InsOnly.append_keep (h0 :: pt) (ih t htf)
        · simp only [replaceAllAux, if_neg hpf]
          exact InsOnly.keep c (ih cs hf)
  intro s
  exact aux s.length s (Nat.le_refl _)

/-- The Sources substitution only inserts blocks, each at the end of the
text or in front of a `)`. -/
theorem sourcesSub_insOnly (ins : List Char) :
    ∀ s, InsOnly (fun c => c = ')') s (sourcesSub ins s) := by
  have aux : ∀ f s, s.length ≤ f →
      InsOnly (fun c => c = ')') s (sourcesSubAux ins f s) := by
    intro f
    induction f with
    | zero =>
      intro s hf
      have : s = [] := List.eq_nil_of_length_eq_zero (Nat.le_zero.mp hf)
      subst this
      exact InsOnly.keepNil
    | succ f ih =>
      intro s hf
      cases s with
      | nil => exact InsOnly.keepNil
      | cons c cs =>
        simp only [List.length_cons, Nat.succ_le_succ_iff] at hf
        cases hm : sourcesMatchLen (c :: cs) with
        | none =>
          simp only [sourcesSubAux, hm]
          exact InsOnly.keep c (ih cs hf)
        | some n =>
          simp only [sourcesSubAux, hm]
          have hn : 1 ≤ n := le_trans (by simp [srcL1, lstr]) (sourcesMatchLen_pos hm)
          have hlen : ((c :: cs).drop n).length ≤ cs.length := by
            rw [List.length_drop]
            simp only [List.length_cons]
            omega
          have hrest := ih ((c :: cs).drop n) (le_trans hlen hf)
          have hin : InsOnly (fun c => c = ')') ((c :: cs).drop n)
              (ins ++ sourcesSubAux ins f ((c :: cs).drop n)) := by
            rcases sourcesMatchLen_next hm with hnil | ⟨ds, hds⟩
            · rw [hnil]
              rw [hnil] at hrest
              exact InsOnly.putEnd _
            · rw [hds]
              rw [hds] at hrest
              exact InsOnly.put ins rfl hrest
          have h2 := InsOnly.append_keep ((c :: cs).take n) hin
          rw [List.take_append_drop] at h2
          rw [List.append_assoc]
          exact h2
  intro s
  exact aux s.length s (Nat.le_refl _)

/- ### `generate_uuid`: `uuid.uuid4().hex[:24].upper()`.

`uuid4()` is a random 128-bit value; `.hex` is its 32-character zero-padded
lowercase hexadecimal form.  The random source is modelled as an arbitrary
natural number reduced mod `2 ^ 128`. -/

/-- Lowercase hexadecimal digit for a value `< 16`. -/
def hexDigitChar (n : Nat) : Char :=
  if n < 10 then Char.ofNat (48 + n) else Char.ofNat (87 + n)

/-- Zero-padded lowercase hexadecimal rendering, most significant first. -/
def hexN : Nat → Nat → List Char
  | 0, _ => []
  | w + 1, v => hexN w (v / 16) ++ [hexDigitChar (v % 16)]

/-- The script's `generate_uuid`, fed by a raw 128-bit random value. -/
def generate_uuid (r : Nat) : List Char :=
  ((hexN 32 (r % 2 ^ 128)).take 24).map Char.toUpper

/-- Well-formedness required of an inserted identifier: exactly 24
uppercase hexadecimal characters. -/
def isUpperHexChar (c : Char) : Bool :=
  (decide ('0' ≤ c) && decide (c ≤ '9')) || (decide ('A' ≤ c) && decide (c ≤ 'F'))

def isGeneratedId (u : List Char) : Bool :=
  (u.length == 24) && u.all isUpperHexChar

theorem hexN_length : ∀ w v, (hexN w v).length = w := by
  intro w
  induction w with
  | zero => intro v; rfl
  | succ w ih => intro v; simp [hexN, ih]

theorem hexDigit_upper : ∀ d : Fin 16, isUpperHexChar (Char.toUpper (hexDigitChar d.val)) = true := by
  decide

theorem hexN_upper : ∀ w v c, c ∈ hexN w v → isUpperHexChar (Char.toUpper c) = true := by
  intro w
  induction w with
  | zero => intro v c hc; simp [hexN] at hc
  | succ w ih =>
    intro v c hc
    simp only [hexN, List.mem_append, List.mem_singleton] at hc
    rcases hc with hc | hc
    · exact ih _ c hc
    · subst hc
      exact hexDigit_upper ⟨v % 16, Nat.mod_lt _ (by omega)⟩

/-- Every generated identifier is a 24-character uppercase hexadecimal
token. -/
theorem generate_uuid_wf (r : Nat) : isGeneratedId (generate_uuid r) = true := by
  unfold isGeneratedId generate_uuid
  rw [Bool.and_eq_true]
  constructor
  · rw [beq_iff_eq, List.length_map, List.length_take, hexN_length]
    decide
  · rw [List.all_eq_true]
    intro c hc
    rw [List.mem_map] at hc
    obtain ⟨c0, hc0, rfl⟩ := hc
    exact hexN_upper 32 _ c0 (List.take_subset _ _ hc0)

/- ### The script's constants and per-candidate insertion step. -/

/-- `PROJECT_DIR`-relative prefix of candidate paths: `Redi/`. -/
def projDir : List Char := lstr "Redi/"

/-- `V5_FILES` from the script. -/
def V5_FILES : List (List Char × List Char) :=
  [(lstr "V5/Config/V5Config.swift", lstr "V5Config.swift"),
   (lstr "V5/Services/V5AudioService.swift", lstr "V5AudioService.swift"),
   (lstr "V5/Services/V5WebSocketService.swift", lstr "V5WebSocketService.swift"),
   (lstr "V5/Views/V5MainView.swift", lstr "V5MainView.swift")]

/-- End marker of the `PBXFileReference` section. -/
def fileRefMarker : List Char := lstr "/* End PBXFileReference section */"

/-- End marker of the `PBXBuildFile` section. -/
def buildFileMarker : List Char := lstr "/* End PBXBuildFile section */"

/-- The `PBXFileReference` record the script inserts. -/
def fileRefRecord (uf fn rel : List Char) : List Char :=
  lstr "\t\t" ++ uf ++ lstr " /* " ++ fn ++
    lstr " */ = \x7bisa = PBXFileReference; lastKnownFileType = sourcecode.swift; path = " ++
    rel ++ lstr "; sourceTree = \"<group>\"; \x7d;\n"

/-- The `PBXBuildFile` record the script inserts. -/
def buildFileRecord (ub uf fn : List Char) : List Char :=
  lstr "\t\t" ++ ub ++ lstr " /* " ++ fn ++
    lstr " in Sources */ = \x7bisa = PBXBuildFile; fileRef = " ++ uf ++
    lstr " /* " ++ fn ++ lstr " */; \x7d;\n"

/-- The sources-list entry the script appends (`\n\t\t\t\t<uuid> /* <fn>
in Sources */,`). -/
def sourcesIns (ub fn : List Char) : List Char :=
  lstr "\n\t\t\t\t" ++ ub ++ lstr " /* " ++ fn ++ lstr " in Sources */,"

/-- The three text substitutions performed for one candidate
(script lines 58-84). -/
def insertAll (uf ub rel fn content : List Char) : List Char :=
  sourcesSub (sourcesIns ub fn)
    (replaceAll buildFileMarker (buildFileRecord ub uf fn ++ buildFileMarker)
      (replaceAll fileRefMarker (fileRefRecord uf fn rel ++ fileRefMarker) content))

/-- The candidate loop (script lines 44-85): returns the final in-memory
manifest text and `files_added`.  `fs` is the on-disk existence oracle,
`gen` the random stream, `i` the index of the next unused random value. -/
def runCandidates (fs : List Char → Bool) (gen : Nat → Nat) :
    List (List Char × List Char) → Nat → List Char → List Char × Nat
  | [], _, content => (content, 0)
  | (rel, fn) :: rest, i, content =>
    if fs (projDir ++ rel) then
      if occurs fn content then
        runCandidates fs gen rest i content
      else
        let r := runCandidates fs gen rest (i + 2)
          (insertAll (generate_uuid (gen i)) (generate_uuid (gen (i + 1))) rel fn content)
        (r.1, r.2 + 1)
    else
      runCandidates fs gen rest i content

/-- Observable outcome of one invocation of `main`. -/
structure MainResult where
  exitCode : Int
  backupCreated : Bool
  backupContent : Option (List Char)
  wroteBack : Bool
  finalManifest : Option (List Char)
  removedCacheItems : List (List Char)
  buildRan : Bool
deriving DecidableEq

/-- `main`, parametric in the candidate list.  `manifest` is `none` when
the manifest path does not exist, otherwise its pre-run content;
`derivedItems` are the entries of the derived-data cache directory;
`buildCode` is the exit code of the `xcodebuild` subprocess. -/
def mainRunWith (cands : List (List Char × List Char))
    (manifest : Option (List Char)) (fs : List Char → Bool) (gen : Nat → Nat)
    (derivedItems : List (List Char)) (buildCode : Int) : MainResult :=
  match manifest with
  | none =>
    { exitCode := 1, backupCreated := false, backupContent := none,
      wroteBack := false, finalManifest := none, removedCacheItems := [],
      buildRan := false }
  | some pre =>
    let r := runCandidates fs gen cands 0 pre
    { exitCode := buildCode, backupCreated := true, backupContent := some pre,
      wroteBack := decide (0 < r.2),
      finalManifest := some (if 0 < r.2 then r.1 else pre),
      removedCacheItems := derivedItems.filter (fun it => occurs (lstr "Redi") it),
      buildRan := true }

/-- `main` with the script's fixed candidate list. -/
def mainRun (manifest : Option (List Char)) (fs : List Char → Bool)
    (gen : Nat → Nat) (derivedItems : List (List Char)) (buildCode : Int) :
    MainResult :=
  mainRunWith V5_FILES manifest fs gen derivedItems buildCode

/- ### Helper lemmas about the candidate loop. -/

/-- If every candidate is absent from disk or already named in the text,
the loop changes nothing and counts nothing. -/
theorem runCandidates_skip_all {fs : List Char → Bool} {gen : Nat → Nat} :
    ∀ (cands : List (List Char × List Char)) (i : Nat) (content : List Char),
      (∀ p ∈ cands, fs (projDir ++ p.1) = false ∨ occurs p.2 content = true) →
      runCandidates fs gen cands i content = (content, 0) := by
  intro cands
  induction cands with
  | nil => intro i content _; rfl
  | cons p rest ih =>
    intro i content h
    obtain ⟨rel, fn⟩ := p
    have hrest : ∀ q ∈ rest, fs (projDir ++ q.1) = false ∨ occurs q.2 content = true :=
      fun q hq => h q (List.mem_cons_of_mem _ hq)
    rcases h ⟨rel, fn⟩ (List.mem_cons_self _ _) with h1 | h1
    · simp only [runCandidates, h1, Bool.false_eq_true, if_false]
      exact ih _ _ hrest
    · by_cases hfs : fs (projDir ++ rel) = true
      · simp only [runCandidates, hfs, if_true, h1, if_pos]
        exact ih _ _ hrest
      · simp only [Bool.not_eq_true] at hfs
        simp only [runCandidates, hfs, Bool.false_eq_true, if_false]
        exact ih _ _ hrest

/-- When none of the three patterns is present, the whole per-candidate
insertion is a textual no-op. -/
theorem insertAll_noop {content : List Char}
    (h1 : occurs fileRefMarker content = false)
    (h2 : occurs buildFileMarker content = false)
    (h3 : hasSourcesMatch content = false)
    (uf ub rel fn : List Char) : insertAll uf ub rel fn content = content := by
  unfold insertAll
  rw [replaceAll_no_occurs _ _ h1, replaceAll_no_occurs _ _ h2,
    sourcesSub_no_match _ _ h3]

/- ### Claims C3, C5, C6, C7, C8. -/

/-- Claim C3: when the manifest path does not exist the run exits with
code 1 and performs no backup, no mutation, no cache eviction and no
build; otherwise the process exit code is exactly the exit code of the
invoked build subprocess (for every random stream, filesystem, cache
content and insertion count). -/
theorem claim_C3 (fs : List Char → Bool) (gen : Nat → Nat)
    (derivedItems : List (List Char)) (bc : Int) (pre : List Char) :
    mainRun none fs gen derivedItems bc =
      { exitCode := 1, backupCreated := false, backupContent := none,
        wroteBack := false, finalManifest := none, removedCacheItems := [],
        buildRan := false }
    ∧ (mainRun (some pre) fs gen derivedItems bc).exitCode = bc
    ∧ (mainRun (some pre) fs gen derivedItems bc).buildRan = true := by
  refine ⟨rfl, ?_, ?_⟩ <;> simp [mainRun, mainRunWith]

/-- Claim C5: if no candidate requires insertion (each one is absent from
disk or already named in the manifest text), the manifest is not written
back and its on-disk content is unchanged. -/
theorem claim_C5 (fs : List Char → Bool) (gen : Nat → Nat)
    (derivedItems : List (List Char)) (bc : Int) (pre : List Char)
    (h : ∀ p ∈ V5_FILES, fs (projDir ++ p.1) = false ∨ occurs p.2 pre = true) :
    (mainRun (some pre) fs gen derivedItems bc).wroteBack = false
    ∧ (mainRun (some pre) fs gen derivedItems bc).finalManifest = some pre := by
  have hr := @runCandidates_skip_all fs gen V5_FILES 0 pre h
  constructor <;> simp [mainRun, mainRunWith, hr]

theorem claim_C5_witness :
    (∀ p ∈ V5_FILES, (fun _ : List Char => false) (projDir ++ p.1) = false
      ∨ occurs p.2 [] = true)
    ∧ (mainRun (some []) (fun _ => false) (fun _ => 0) [] 7).wroteBack = false
    ∧ (mainRun (some []) (fun _ => false) (fun _ => 0) [] 7).finalManifest = some [] :=
  ⟨by decide, claim_C5 (fun _ => false) (fun _ => 0) [] 7 [] (by decide)⟩

/-- Claim C6: whenever the manifest exists a backup is created, and the
backup's content is byte-identical to the manifest's pre-run content,
whether or not any insertion occurred. -/
theorem claim_C6 (fs : List Char → Bool) (gen : Nat → Nat)
    (derivedItems : List (List Char)) (bc : Int) (pre : List Char) :
    (mainRun (some pre) fs gen derivedItems bc).backupCreated = true
    ∧ (mainRun (some pre) fs gen derivedItems bc).backupContent = some pre := by
  constructor <;> simp [mainRun, mainRunWith]

/-- Claim C7: a candidate whose file is absent from disk is skipped
entirely — processing it equals not processing it at all, for every
manifest content, so no record for it is ever inserted, and the loop
continues normally with the remaining candidates. -/
theorem claim_C7 (fs : List Char → Bool) (gen : Nat → Nat)
    (rel fn : List Char) (rest : List (List Char × List Char))
    (i : Nat) (content : List Char)
    (h : fs (projDir ++ rel) = false) :
    runCandidates fs gen ((rel, fn) :: rest) i content =
      runCandidates fs gen rest i content := by
  simp [runCandidates, h]

theorem claim_C7_witness :
    (fun _ : List Char => false) (projDir ++ lstr "V5/Config/V5Config.swift") = false
    ∧ runCandidates (fun _ => false) (fun _ => 0)
        [(lstr "V5/Config/V5Config.swift", lstr "V5Config.swift")] 0 (lstr "abc") =
      runCandidates (fun _ => false) (fun _ => 0) [] 0 (lstr "abc") :=
  ⟨rfl, claim_C7 (fun _ => false) (fun _ => 0) _ _ [] 0 (lstr "abc") rfl⟩

/-- Claim C8: for a candidate on disk and not yet named, each of the
three insertions whose pattern is absent from its input text silently
leaves that text unchanged — the file-reference substitution when the
file-reference section-end marker is missing from the manifest, the
build-file substitution when the build-file section-end marker is missing
from the (possibly already extended) text, the sources-list substitution
when no Sources files list matches — while the other insertions may still
fire; no error is raised, the candidate is still counted as added, and
the manifest, possibly missing the corresponding record, is still written
back. -/
theorem claim_C8 (fs : List Char → Bool) (gen : Nat → Nat)
    (rel fn content : List Char) (i : Nat)
    (derivedItems : List (List Char)) (bc : Int)
    (hfs : fs (projDir ++ rel) = true)
    (hname : occurs fn content = false) :
    (occurs fileRefMarker content = false →
      replaceAll fileRefMarker
        (fileRefRecord (generate_uuid (gen i)) fn rel ++ fileRefMarker) content
        = content)
    ∧ (occurs buildFileMarker
        (replaceAll fileRefMarker
          (fileRefRecord (generate_uuid (gen i)) fn rel ++ fileRefMarker) content)
        = false →
      replaceAll buildFileMarker
        (buildFileRecord (generate_uuid (gen (i + 1))) (generate_uuid (gen i)) fn
          ++ buildFileMarker)
        (replaceAll fileRefMarker
          (fileRefRecord (generate_uuid (gen i)) fn rel ++ fileRefMarker) content)
        = replaceAll fileRefMarker
          (fileRefRecord (generate_uuid (gen i)) fn rel ++ fileRefMarker) content)
    ∧ (hasSourcesMatch
        (replaceAll buildFileMarker
          (buildFileRecord (generate_uuid (gen (i + 1))) (generate_uuid (gen i)) fn
            ++ buildFileMarker)
          (replaceAll fileRefMarker
            (fileRefRecord (generate_uuid (gen i)) fn rel ++ fileRefMarker) content))
        = false →
      insertAll (generate_uuid (gen i)) (generate_uuid (gen (i + 1))) rel fn content
        = replaceAll buildFileMarker
          (buildFileRecord (generate_uuid (gen (i + 1))) (generate_uuid (gen i)) fn
            ++ buildFileMarker)
          (replaceAll fileRefMarker
            (fileRefRecord (generate_uuid (gen i)) fn rel ++ fileRefMarker) content))
    ∧ runCandidates fs gen [(rel, fn)] i content
        = (insertAll (generate_uuid (gen i)) (generate_uuid (gen (i + 1))) rel fn content, 1)
    ∧ (mainRunWith [(rel, fn)] (some content) fs gen derivedItems bc).wroteBack = true
    ∧ (mainRunWith [(rel, fn)] (some content) fs gen derivedItems bc).finalManifest
        = some (insertAll (generate_uuid (gen 0)) (generate_uuid (gen 1)) rel fn content) := by
  have hrun : ∀ j : Nat, runCandidates fs gen [(rel, fn)] j content
      = (insertAll (generate_uuid (gen j)) (generate_uuid (gen (j + 1))) rel fn content, 1) := by
    intro j
    simp [runCandidates, hfs, hname]
  refine ⟨fun h => replaceAll_no_occurs _ _ h, fun h => replaceAll_no_occurs _ _ h,
    fun h => ?_, hrun i, ?_, ?_⟩
  · unfold insertAll
    rw [sourcesSub_no_match _ _ h]
  · simp [mainRunWith, hrun 0]
  · simp [mainRunWith, hrun 0]

/-- Witness manifest for claim C8: both section-end markers present, but
no Sources files list — the run inserts the file-reference and build-file
records, the sources insertion silently inserts nothing, and the manifest
missing the sources record is written back. -/
def c8wContent : List Char := fileRefMarker ++ lstr "\n" ++ buildFileMarker

def c8wStep2 : List Char :=
  replaceAll buildFileMarker
    (buildFileRecord (generate_uuid 0) (generate_uuid 0) (lstr "V5Config.swift")
      ++ buildFileMarker)
    (replaceAll fileRefMarker
      (fileRefRecord (generate_uuid 0) (lstr "V5Config.swift")
        (lstr "V5/Config/V5Config.swift") ++ fileRefMarker)
      c8wContent)

theorem claim_C8_witness :
    ((fun _ : List Char => true) (projDir ++ lstr "V5/Config/V5Config.swift") = true
      ∧ occurs (lstr "V5Config.swift") c8wContent = false
      ∧ hasSourcesMatch c8wStep2 = false)
    ∧ insertAll (generate_uuid 0) (generate_uuid 0) (lstr "V5/Config/V5Config.swift")
        (lstr "V5Config.swift") c8wContent = c8wStep2
    ∧ runCandidates (fun _ => true) (fun _ => 0)
        [(lstr "V5/Config/V5Config.swift", lstr "V5Config.swift")] 0 c8wContent
        = (insertAll (generate_uuid 0) (generate_uuid 0)
            (lstr "V5/Config/V5Config.swift") (lstr "V5Config.swift") c8wContent, 1)
    ∧ (mainRunWith [(lstr "V5/Config/V5Config.swift", lstr "V5Config.swift")]
        (some c8wContent) (fun _ => true) (fun _ => 0) [] 3).wroteBack = true
    ∧ (mainRunWith [(lstr "V5/Config/V5Config.swift", lstr "V5Config.swift")]
        (some c8wContent) (fun _ => true) (fun _ => 0) [] 3).finalManifest
        = some (insertAll (generate_uuid 0) (generate_uuid 0)
            (lstr "V5/Config/V5Config.swift") (lstr "V5Config.swift") c8wContent) := by
  have h := claim_C8 (fun _ => true) (fun _ => 0) (lstr "V5/Config/V5Config.swift")
    (lstr "V5Config.swift") c8wContent 0 [] 3 rfl (by decide)
  exact ⟨⟨rfl, by decide, by decide⟩, h.2.2.1 (by decide), h.2.2.2.1,
    h.2.2.2.2.1, h.2.2.2.2.2⟩

/- ### Claim C1: exactly one insertion of each kind for a well-formed
manifest. -/

/-- Claim C1: for a candidate present on disk whose display name does not
occur in the manifest text, one run of the per-candidate step inserts
exactly one file-reference record (in front of the single
`End PBXFileReference` marker), exactly one build-file record (in front of
the single `End PBXBuildFile` marker) and exactly one sources-list
reference (at the single match of the Sources pattern) — the manifest is
otherwise unchanged — and both generated identifiers are fixed-width
24-character uppercase hexadecimal tokens.  The `splitFirst`/`occurs`
hypotheses say the manifest is well-formed: each marker occurs exactly
once and the Sources pattern matches exactly once. -/
theorem claim_C1 (fs : List Char → Bool) (gen : Nat → Nat) (i : Nat)
    (rel fn content a1 b1 a2 b2 a3 b3 : List Char)
    (hfs : fs (projDir ++ rel) = true)
    (hname : occurs fn content = false)
    (h1 : splitFirst fileRefMarker content = some (a1, b1))
    (h1' : occurs fileRefMarker b1 = false)
    (h2 : splitFirst buildFileMarker
        (a1 ++ fileRefRecord (generate_uuid (gen i)) fn rel ++ fileRefMarker ++ b1)
        = some (a2, b2))
    (h2' : occurs buildFileMarker b2 = false)
    (h3 : sourcesFind
        (a2 ++ buildFileRecord (generate_uuid (gen (i + 1))) (generate_uuid (gen i)) fn
          ++ buildFileMarker ++ b2)
        = some (a3, b3))
    (h3' : hasSourcesMatch b3 = false) :
    content = a1 ++ fileRefMarker ++ b1
    ∧ replaceAll fileRefMarker
        (fileRefRecord (generate_uuid (gen i)) fn rel ++ fileRefMarker) content
        = a1 ++ fileRefRecord (generate_uuid (gen i)) fn rel ++ fileRefMarker ++ b1
    ∧ replaceAll buildFileMarker
        (buildFileRecord (generate_uuid (gen (i + 1))) (generate_uuid (gen i)) fn
          ++ buildFileMarker)
        (a1 ++ fileRefRecord (generate_uuid (gen i)) fn rel ++ fileRefMarker ++ b1)
        = a2 ++ buildFileRecord (generate_uuid (gen (i + 1))) (generate_uuid (gen i)) fn
          ++ buildFileMarker ++ b2
    ∧ runCandidates fs gen [(rel, fn)] i content
        = (a3 ++ sourcesIns (generate_uuid (gen (i + 1))) fn ++ b3, 1)
    ∧ isGeneratedId (generate_uuid (gen i)) = true
    ∧ isGeneratedId (generate_uuid (gen (i + 1))) = true := by
  have hmne : fileRefMarker ≠ [] := by decide
  have hstep1 : replaceAll fileRefMarker
      (fileRefRecord (generate_uuid (gen i)) fn rel ++ fileRefMarker) content
      = a1 ++ fileRefRecord (generate_uuid (gen i)) fn rel ++ fileRefMarker ++ b1 := by
    rw [replaceAll_split _ h1, replaceAll_no_occurs _ _ h1']
    simp
  have hstep2 : replaceAll buildFileMarker
      (buildFileRecord (generate_uuid (gen (i + 1))) (generate_uuid (gen i)) fn
        ++ buildFileMarker)
      (a1 ++ fileRefRecord (generate_uuid (gen i)) fn rel ++ fileRefMarker ++ b1)
      = a2 ++ buildFileRecord (generate_uuid (gen (i + 1))) (generate_uuid (gen i)) fn
        ++ buildFileMarker ++ b2 := by
    rw [replaceAll_split _ h2, replaceAll_no_occurs _ _ h2']
    simp
  have hstep3 : insertAll (generate_uuid (gen i)) (generate_uuid (gen (i + 1))) rel fn content
      = a3 ++ sourcesIns (generate_uuid (gen (i + 1))) fn ++ b3 := by
    unfold insertAll
    rw [hstep1, hstep2, sourcesSub_split _ h3, sourcesSub_no_match _ _ h3']
  refine ⟨splitFirst_decomp hmne h1, hstep1, hstep2, ?_, generate_uuid_wf _,
    generate_uuid_wf _⟩
  simp [runCandidates, hfs, hname, hstep3]

/-- Concrete witness manifest for claim C1: one file-reference section
end, one build-file section end, one empty Sources files list. -/
def c1wSrc : List Char := lstr "/* Sources */ = \x7b\nfiles = (\n);\n"

def c1wContent : List Char :=
  fileRefMarker ++ lstr "\n" ++ buildFileMarker ++ lstr "\n" ++ c1wSrc

def c1wFn : List Char := lstr "V5Config.swift"

def c1wRel : List Char := lstr "V5/Config/V5Config.swift"

def c1wUf : List Char := generate_uuid 0

def c1wUb : List Char := generate_uuid (2 ^ 40)

def c1wB1 : List Char := lstr "\n" ++ buildFileMarker ++ lstr "\n" ++ c1wSrc

def c1wA2 : List Char := fileRefRecord c1wUf c1wFn c1wRel ++ fileRefMarker ++ lstr "\n"

def c1wB2 : List Char := lstr "\n" ++ c1wSrc

def c1wA3 : List Char :=
  c1wA2 ++ buildFileRecord c1wUb c1wUf c1wFn ++ buildFileMarker ++ lstr "\n" ++
    lstr "/* Sources */ = \x7b\nfiles = (\n"

def c1wB3 : List Char := lstr ");\n"

theorem claim_C1_witness :
    ((fun _ : List Char => true) (projDir ++ c1wRel) = true
      ∧ occurs c1wFn c1wContent = false
      ∧ splitFirst fileRefMarker c1wContent = some ([], c1wB1)
      ∧ occurs fileRefMarker c1wB1 = false
      ∧ splitFirst buildFileMarker
          ([] ++ fileRefRecord (generate_uuid ((fun j => j * 2 ^ 40) 0)) c1wFn c1wRel
            ++ fileRefMarker ++ c1wB1) = some (c1wA2, c1wB2)
      ∧ occurs buildFileMarker c1wB2 = false
      ∧ sourcesFind
          (c1wA2 ++ buildFileRecord (generate_uuid ((fun j => j * 2 ^ 40) (0 + 1)))
            (generate_uuid ((fun j => j * 2 ^ 40) 0)) c1wFn
            ++ buildFileMarker ++ c1wB2) = some (c1wA3, c1wB3)
      ∧ hasSourcesMatch c1wB3 = false)
    ∧ runCandidates (fun _ => true) (fun j => j * 2 ^ 40) [(c1wRel, c1wFn)] 0 c1wContent
        = (c1wA3 ++ sourcesIns (generate_uuid ((fun j => j * 2 ^ 40) (0 + 1))) c1wFn
            ++ c1wB3, 1)
    ∧ isGeneratedId (generate_uuid ((fun j => j * 2 ^ 40) 0)) = true
    ∧ isGeneratedId (generate_uuid ((fun j => j * 2 ^ 40) (0 + 1))) = true := by
  refine ⟨⟨rfl, by decide, by decide, by decide, by decide, by decide, by decide,
    by decide⟩, ?_, ?_, ?_⟩
  · exact (claim_C1 (fun _ => true) (fun j => j * 2 ^ 40) 0 c1wRel c1wFn c1wContent
      [] c1wB1 c1wA2 c1wB2 c1wA3 c1wB3 rfl (by decide) (by decide) (by decide)
      (by decide) (by decide) (by decide) (by decide)).2.2.2.1
  · exact (claim_C1 (fun _ => true) (fun j => j * 2 ^ 40) 0 c1wRel c1wFn c1wContent
      [] c1wB1 c1wA2 c1wB2 c1wA3 c1wB3 rfl (by decide) (by decide) (by decide)
      (by decide) (by decide) (by decide) (by decide)).2.2.2.2.1
  · exact (claim_C1 (fun _ => true) (fun j => j * 2 ^ 40) 0 c1wRel c1wFn c1wContent
      [] c1wB1 c1wA2 c1wB2 c1wA3 c1wB3 rfl (by decide) (by decide) (by decide)
      (by decide) (by decide) (by decide) (by decide)).2.2.2.2.2

/- ### Claim C9: the substitutions are global. -/

/-- Join a list of segments with one separator between consecutive
segments. -/
def joinSep (sep : List Char) : List (List Char) → List Char
  | [] => []
  | [x] => x
  | x :: y :: rest => x ++ sep ++ joinSep sep (y :: rest)

/-- Decomposition of a string around every (non-overlapping, leftmost)
occurrence of `pat`: `segs` are the separating segments, in order. -/
inductive SplitOcc (pat : List Char) : List Char → List (List Char) → Prop
  | last (s : List Char) : occurs pat s = false → SplitOcc pat s [s]
  | step {s : List Char} (a b : List Char) {segs : List (List Char)} :
      splitFirst pat s = some (a, b) → SplitOcc pat b segs → SplitOcc pat s (a :: segs)

theorem SplitOcc.ne_nil {pat s : List Char} {segs : List (List Char)}
    (h : SplitOcc pat s segs) : segs ≠ [] := by
  cases h <;> simp

theorem joinSep_cons (sep x : List Char) {segs : List (List Char)}
    (h : segs ≠ []) : joinSep sep (x :: segs) = x ++ sep ++ joinSep sep segs := by
  cases segs with
  | nil => exact absurd rfl h
  | cons y rest => rfl

theorem splitOcc_decomp {pat : List Char} (hp : pat ≠ []) :
    ∀ {s : List Char} {segs : List (List Char)}, SplitOcc pat s segs →
      s = joinSep pat segs := by
  intro s segs h
  induction h with
  | last s h0 => rfl
  | step a b hsp hso ih =>
    rw [joinSep_cons pat a hso.ne_nil, ← ih]
    exact splitFirst_decomp hp hsp

theorem SplitOcc.replaceAll_eq {pat : List Char} (rep : List Char) :
    ∀ {s : List Char} {segs : List (List Char)}, SplitOcc pat s segs →
      replaceAll pat (rep ++ pat) s = joinSep (rep ++ pat) segs := by
  intro s segs h
  induction h with
  | last s h0 => rw [replaceAll_no_occurs _ _ h0]; rfl
  | step a b hsp hso ih =>
    rw [replaceAll_split _ hsp, ih, joinSep_cons _ a hso.ne_nil]

/-- Decomposition of a string around every match of the Sources pattern:
`segs` are the prefixes each ending with a matched stretch, `r` the
match-free remainder. -/
inductive SrcSplit : List Char → List (List Char) → List Char → Prop
  | last (s : List Char) : hasSourcesMatch s = false → SrcSplit s [] s
  | step {s : List Char} (a b : List Char) {segs : List (List Char)} {r : List Char} :
      sourcesFind s = some (a, b) → SrcSplit b segs r → SrcSplit s (a :: segs) r

/-- Append `ins` after every segment, then the remainder. -/
def withEach (ins : List Char) : List (List Char) → List Char → List Char
  | [], r => r
  | a :: segs, r => a ++ ins ++ withEach ins segs r

theorem srcSplit_decomp :
    ∀ {s : List Char} {segs : List (List Char)} {r : List Char},
      SrcSplit s segs r → s = withEach [] segs r := by
  intro s segs r h
  induction h with
  | last s h0 => rfl
  | step a b hsp hso ih =>
    simp only [withEach, List.append_nil]
    rw [← ih]
    exact sourcesFind_decomp hsp

theorem SrcSplit.sub_eq (ins : List Char) :
    ∀ {s : List Char} {segs : List (List Char)} {r : List Char},
      SrcSplit s segs r → sourcesSub ins s = withEach ins segs r := by
  intro s segs r h
  induction h with
  | last s h0 => rw [sourcesSub_no_match _ _ h0]; rfl
  | step a b hsp hso ih =>
    rw [sourcesSub_split _ hsp, ih]
    rfl

/-- Claim C9 (implicit): the three substitutions are global.  For a
manifest containing `n > 1` occurrences of the file-reference section-end
marker, a single candidate's record is inserted in front of every one of
the `n` occurrences (`segs.length = n + 1 ≥ 3`); likewise a manifest with
`n > 1` matching Sources build-phase blocks receives the new sources-list
reference at every one of the `n` matches — not exactly once. -/
theorem claim_C9 (rec ins : List Char) {content content2 : List Char}
    {segs ssegs : List (List Char)} {r : List Char}
    (hs : SplitOcc fileRefMarker content segs) (hn : 3 ≤ segs.length)
    (hs2 : SrcSplit content2 ssegs r) (hn2 : 2 ≤ ssegs.length) :
    content = joinSep fileRefMarker segs
    ∧ replaceAll fileRefMarker (rec ++ fileRefMarker) content
        = joinSep (rec ++ fileRefMarker) segs
    ∧ content2 = withEach [] ssegs r
    ∧ sourcesSub ins content2 = withEach ins ssegs r :=
  ⟨splitOcc_decomp (by decide) hs, hs.replaceAll_eq rec, srcSplit_decomp hs2, hs2.sub_eq ins⟩

/-- Two adjacent copies of the Sources block, for the C9 witness. -/
def c9Blk : List Char := lstr "/* Sources */ = \x7b files = () \x7d"

def c9SegA : List Char := lstr "/* Sources */ = \x7b files = ("

def c9SegB : List Char := lstr ") \x7d/* Sources */ = \x7b files = ("

def c9Rest : List Char := lstr ") \x7d"

theorem claim_C9_witness :
    (3 ≤ ([[], [], []] : List (List Char)).length
      ∧ 2 ≤ ([c9SegA, c9SegB] : List (List Char)).length)
    ∧ fileRefMarker ++ fileRefMarker = joinSep fileRefMarker [[], [], []]
    ∧ replaceAll fileRefMarker (lstr "REC" ++ fileRefMarker)
        (fileRefMarker ++ fileRefMarker)
        = joinSep (lstr "REC" ++ fileRefMarker) [[], [], []]
    ∧ c9Blk ++ c9Blk = withEach [] [c9SegA, c9SegB] c9Rest
    ∧ sourcesSub (lstr "INS") (c9Blk ++ c9Blk)
        = withEach (lstr "INS") [c9SegA, c9SegB] c9Rest := by
  have hso : SplitOcc fileRefMarker (fileRefMarker ++ fileRefMarker) [[], [], []] := by
    refine SplitOcc.step [] fileRefMarker (by decide) ?_
    refine SplitOcc.step [] [] (by decide) ?_
    exact SplitOcc.last [] (by decide)
  have hss : SrcSplit (c9Blk ++ c9Blk) [c9SegA, c9SegB] c9Rest := by
    refine SrcSplit.step c9SegA (lstr ") \x7d" ++ c9Blk) (by decide) ?_
    refine SrcSplit.step c9SegB c9Rest (by decide) ?_
    exact SrcSplit.last c9Rest (by decide)
  obtain ⟨hA, hB, hC, hD⟩ := claim_C9 (lstr "REC") (lstr "INS") hso (by decide)
    hss (by decide)
  exact ⟨⟨by decide, by decide⟩, hA, hB, hC, hD⟩

/- ### Claim C10: the already-registered check runs against the mutated
in-memory text. -/

/-- Claim C10 (implicit): within one run, a later candidate's
already-registered check is evaluated against the in-memory text as
mutated by earlier candidates: if the second candidate's display name,
absent from the manifest as read, occurs in the text produced by the first
candidate's insertion, the second candidate is skipped without insertion —
processing it is the same as not listing it at all. -/
theorem claim_C10 (fs : List Char → Bool) (gen : Nat → Nat)
    (rel1 fn1 rel2 fn2 : List Char) (rest : List (List Char × List Char))
    (i : Nat) (content : List Char)
    (hfs1 : fs (projDir ++ rel1) = true)
    (hfs2 : fs (projDir ++ rel2) = true)
    (h1 : occurs fn1 content = false)
    (h2 : occurs fn2 content = false)
    (h2' : occurs fn2 (insertAll (generate_uuid (gen i)) (generate_uuid (gen (i + 1)))
        rel1 fn1 content) = true) :
    runCandidates fs gen ((rel1, fn1) :: (rel2, fn2) :: rest) i content
      = runCandidates fs gen ((rel1, fn1) :: rest) i content := by
  simp [runCandidates, hfs1, hfs2, h1, h2']

theorem claim_C10_witness :
    (occurs (lstr "Config.swift") fileRefMarker = false
      ∧ occurs (lstr "Config.swift")
          (insertAll (generate_uuid 0) (generate_uuid 0) (lstr "p1")
            (lstr "V5Config.swift") fileRefMarker) = true)
    ∧ runCandidates (fun _ => true) (fun _ => 0)
        [(lstr "p1", lstr "V5Config.swift"), (lstr "p2", lstr "Config.swift")] 0
        fileRefMarker
      = runCandidates (fun _ => true) (fun _ => 0)
        [(lstr "p1", lstr "V5Config.swift")] 0 fileRefMarker :=
  ⟨⟨by decide, by decide⟩,
    claim_C10 (fun _ => true) (fun _ => 0) (lstr "p1") (lstr "V5Config.swift")
      (lstr "p2") (lstr "Config.swift") [] 0 fileRefMarker rfl rfl
      (by decide) (by decide) (by decide)⟩

/- ### Claim C2: idempotence after the first run.

The invariant: as long as one of the two section-end markers is present,
every candidate that is inserted gets its display name into the text (the
inserted records contain the name), the name survives all later
insertions (insertion points sit in front of `/` or `)`, characters that
do not occur in the candidate names), and a marker stays present. -/

/-- A display name containing neither `/` nor `)` — true of every real
candidate file name, in particular of all of `V5_FILES`. -/
def SafeName (fn : List Char) : Prop := ∀ c ∈ fn, c ≠ '/' ∧ c ≠ ')'

instance SafeName.dec (fn : List Char) : Decidable (SafeName fn) := by
  unfold SafeName
  infer_instance

/-- One of the two section-end markers occurs in the text. -/
def MarkerPresent (s : List Char) : Prop :=
  occurs fileRefMarker s = true ∨ occurs buildFileMarker s = true

theorem fileRef_insOnly (rep s : List Char) :
    InsOnly (fun c => c = '/') s
      (replaceAll fileRefMarker (rep ++ fileRefMarker) s) := by
  have h : fileRefMarker = '/' :: lstr "* End PBXFileReference section */" := by decide
  rw [h]
  exact replaceAll_insOnly '/' (lstr "* End PBXFileReference section */") rep s

theorem buildFile_insOnly (rep s : List Char) :
    InsOnly (fun c => c = '/') s
      (replaceAll buildFileMarker (rep ++ buildFileMarker) s) := by
  have h : buildFileMarker = '/' :: lstr "* End PBXBuildFile section */" := by decide
  rw [h]
  exact replaceAll_insOnly '/' (lstr "* End PBXBuildFile section */") rep s

/-- A safe name's occurrence survives the three substitutions of one
candidate's insertion step. -/
theorem insertAll_keeps_occurs {fn0 : List Char} (hsafe : SafeName fn0)
    (uf ub rel fn : List Char) {s : List Char} (h : occurs fn0 s = true) :
    occurs fn0 (insertAll uf ub rel fn s) = true := by
  unfold insertAll
  apply (sourcesSub_insOnly (sourcesIns ub fn) _).occurs_kept
    (fun c hc => (hsafe c hc).2)
  apply (buildFile_insOnly (buildFileRecord ub uf fn) _).occurs_kept
    (fun c hc => (hsafe c hc).1)
  apply (fileRef_insOnly (fileRefRecord uf fn rel) _).occurs_kept
    (fun c hc => (hsafe c hc).1)
  exact h

theorem occurs_name_fileRefRecord (uf fn rel : List Char) :
    occurs fn (fileRefRecord uf fn rel) = true := by
  unfold fileRefRecord
  refine occurs_of_decomp (x := lstr "\t\t" ++ uf ++ lstr " /* ")
    (y := lstr " */ = \x7bisa = PBXFileReference; lastKnownFileType = sourcecode.swift; path = "
      ++ rel ++ lstr "; sourceTree = \"<group>\"; \x7d;\n") ?_
  simp

theorem occurs_name_buildFileRecord (ub uf fn : List Char) :
    occurs fn (buildFileRecord ub uf fn) = true := by
  unfold buildFileRecord
  refine occurs_of_decomp (x := lstr "\t\t" ++ ub ++ lstr " /* ")
    (y := lstr " in Sources */ = \x7bisa = PBXBuildFile; fileRef = " ++ uf
      ++ lstr " /* " ++ fn ++ lstr " */; \x7d;\n") ?_
  simp

/-- While a marker is present, an insertion step writes the candidate's
display name into the text. -/
theorem insertAll_inserts_name {fn : List Char} (hsafe : SafeName fn)
    (uf ub rel : List Char) {s : List Char} (hw : MarkerPresent s) :
    occurs fn (insertAll uf ub rel fn s) = true := by
  unfold insertAll
  by_cases hF : occurs fileRefMarker s = true
  · apply (sourcesSub_insOnly (sourcesIns ub fn) _).occurs_kept
      (fun c hc => (hsafe c hc).2)
    apply (buildFile_insOnly (buildFileRecord ub uf fn) _).occurs_kept
      (fun c hc => (hsafe c hc).1)
    exact replaceAll_puts_rep _ (by decide) hF (occurs_name_fileRefRecord uf fn rel)
  · have hB : occurs buildFileMarker s = true := by
      rcases hw with hw | hw
      · exact absurd hw hF
      · exact hw
    have hs1 : replaceAll fileRefMarker (fileRefRecord uf fn rel ++ fileRefMarker) s
        = s := replaceAll_no_occurs _ s (by simpa using hF)
    rw [hs1]
    apply (sourcesSub_insOnly (sourcesIns ub fn) _).occurs_kept
      (fun c hc => (hsafe c hc).2)
    exact replaceAll_puts_rep _ (by decide) hB (occurs_name_buildFileRecord ub uf fn)

/-- An insertion step keeps a marker present. -/
theorem insertAll_marker (uf ub rel fn : List Char) {s : List Char}
    (hw : MarkerPresent s) : MarkerPresent (insertAll uf ub rel fn s) := by
  have hFsafe : ∀ c ∈ fileRefMarker, ¬ (c = ')') := by decide
  have hBsafe : ∀ c ∈ buildFileMarker, ¬ (c = ')') := by decide
  unfold insertAll
  by_cases hF : occurs fileRefMarker s = true
  · have hs1 : occurs fileRefMarker
        (replaceAll fileRefMarker (fileRefRecord uf fn rel ++ fileRefMarker) s) = true :=
      replaceAll_keeps_pat _ (by decide) hF
    by_cases hB1 : occurs buildFileMarker
        (replaceAll fileRefMarker (fileRefRecord uf fn rel ++ fileRefMarker) s) = true
    · right
      apply (sourcesSub_insOnly (sourcesIns ub fn) _).occurs_kept hBsafe
      exact replaceAll_keeps_pat _ (by decide) hB1
    · left
      apply (sourcesSub_insOnly (sourcesIns ub fn) _).occurs_kept hFsafe
      rw [replaceAll_no_occurs _ _ (by simpa using hB1)]
      exact hs1
  · have hB : occurs buildFileMarker s = true := by
      rcases hw with hw | hw
      · exact absurd hw hF
      · exact hw
    rw [replaceAll_no_occurs _ s (by simpa using hF)]
    right
    apply (sourcesSub_insOnly (sourcesIns ub fn) _).occurs_kept hBsafe
    exact replaceAll_keeps_pat _ (by decide) hB

/-- The candidate loop never destroys the occurrence of a safe name. -/
theorem runCandidates_keeps_occurs {fs : List Char → Bool} {gen : Nat → Nat}
    {fn0 : List Char} (hsafe : SafeName fn0) :
    ∀ (cands : List (List Char × List Char)) (i : Nat) (content : List Char),
      occurs fn0 content = true →
      occurs fn0 (runCandidates fs gen cands i content).1 = true := by
  intro cands
  induction cands with
  | nil => intro i content h; exact h
  | cons p rest ih =>
    intro i content h
    obtain ⟨rel, fn⟩ := p
    by_cases hfs : fs (projDir ++ rel) = true
    · by_cases hocc : occurs fn content = true
      · simpa [runCandidates, hfs, hocc] using ih i content h
      · have h3 := insertAll_keeps_occurs hsafe (generate_uuid (gen i))
          (generate_uuid (gen (i + 1))) rel fn h
        simpa [runCandidates, hfs, hocc] using ih (i + 2) _ h3
    · simp only [Bool.not_eq_true] at hfs
      simpa [runCandidates, hfs] using ih i content h

/-- The candidate loop keeps a marker present. -/
theorem runCandidates_marker {fs : List Char → Bool} {gen : Nat → Nat} :
    ∀ (cands : List (List Char × List Char)) (i : Nat) (content : List Char),
      MarkerPresent content →
      MarkerPresent (runCandidates fs gen cands i content).1 := by
  intro cands
  induction cands with
  | nil => intro i content h; exact h
  | cons p rest ih =>
    intro i content h
    obtain ⟨rel, fn⟩ := p
    by_cases hfs : fs (projDir ++ rel) = true
    · by_cases hocc : occurs fn content = true
      · simpa [runCandidates, hfs, hocc] using ih i content h
      · have h3 := insertAll_marker (generate_uuid (gen i))
          (generate_uuid (gen (i + 1))) rel fn h
        simpa [runCandidates, hfs, hocc] using ih (i + 2) _ h3
    · simp only [Bool.not_eq_true] at hfs
      simpa [runCandidates, hfs] using ih i content h

/-- After one run, every candidate present on disk has its display name in
the text (provided a marker was present and names are safe). -/
theorem runCandidates_establish {fs : List Char → Bool} {gen : Nat → Nat} :
    ∀ (cands : List (List Char × List Char)), (∀ p ∈ cands, SafeName p.2) →
      ∀ (i : Nat) (content : List Char), MarkerPresent content →
      ∀ p ∈ cands, fs (projDir ++ p.1) = true →
        occurs p.2 (runCandidates fs gen cands i content).1 = true := by
  intro cands
  induction cands with
  | nil => intro _ i content _ p hp; simp at hp
  | cons q rest ih =>
    intro hsafe i content hw p hp hfsp
    obtain ⟨rel, fn⟩ := q
    have hsrest : ∀ p ∈ rest, SafeName p.2 :=
      fun r hr => hsafe r (List.mem_cons_of_mem _ hr)
    rcases List.mem_cons.mp hp with hp | hp
    · subst hp
      rw [show (rel, fn).1 = rel from rfl] at hfsp
      by_cases hocc : occurs fn content = true
      · simpa [runCandidates, hfsp, hocc] using
          runCandidates_keeps_occurs (hsafe _ (List.mem_cons_self _ _)) rest i content hocc
      · have hins := insertAll_inserts_name (hsafe _ (List.mem_cons_self _ _))
          (generate_uuid (gen i)) (generate_uuid (gen (i + 1))) rel hw
        simpa [runCandidates, hfsp, hocc] using
          runCandidates_keeps_occurs (hsafe _ (List.mem_cons_self _ _)) rest (i + 2) _ hins
    · by_cases hfs : fs (projDir ++ rel) = true
      · by_cases hocc : occurs fn content = true
        · simpa [runCandidates, hfs, hocc] using ih hsrest i content hw p hp hfsp
        · have hw3 := insertAll_marker (generate_uuid (gen i))
            (generate_uuid (gen (i + 1))) rel fn hw
          simpa [runCandidates, hfs, hocc] using ih hsrest (i + 2) _ hw3 p hp hfsp
      · simp only [Bool.not_eq_true] at hfs
        simpa [runCandidates, hfs] using ih hsrest i content hw p hp hfsp

/-- Claim C2: running the patcher twice on the same inputs is idempotent
after the first run.  For every candidate on disk the first run leaves its
display name in the manifest text, so the second run (with any random
stream) finds every candidate already registered, performs no insertions,
and returns the manifest content of the first run unchanged with an
insertion count of zero.  Hypotheses: the manifest initially contains a
section-end marker (a well-formed manifest does) and the candidate names
contain no `/` or `)` (true of `V5_FILES`). -/
theorem claim_C2 (fs : List Char → Bool) (gen gen2 : Nat → Nat)
    (cands : List (List Char × List Char)) (i j : Nat) (content : List Char)
    (hsafe : ∀ p ∈ cands, SafeName p.2)
    (hw : MarkerPresent content) :
    (∀ p ∈ cands, fs (projDir ++ p.1) = true →
      occurs p.2 (runCandidates fs gen cands i content).1 = true)
    ∧ runCandidates fs gen2 cands j (runCandidates fs gen cands i content).1
        = ((runCandidates fs gen cands i content).1, 0) := by
  have he := @runCandidates_establish fs gen cands hsafe i content hw
  refine ⟨he, runCandidates_skip_all cands j _ ?_⟩
  intro p hp
  by_cases hfsp : fs (projDir ++ p.1) = true
  · exact Or.inr (he p hp hfsp)
  · exact Or.inl (by simpa using hfsp)

theorem claim_C2_witness :
    ((∀ p ∈ V5_FILES, SafeName p.2) ∧ MarkerPresent fileRefMarker)
    ∧ (∀ p ∈ V5_FILES, (fun _ : List Char => true) (projDir ++ p.1) = true →
        occurs p.2 (runCandidates (fun _ => true) (fun _ => 0) V5_FILES 0
          fileRefMarker).1 = true)
    ∧ runCandidates (fun _ => true) (fun _ => 1) V5_FILES 0
        (runCandidates (fun _ => true) (fun _ => 0) V5_FILES 0 fileRefMarker).1
      = ((runCandidates (fun _ => true) (fun _ => 0) V5_FILES 0 fileRefMarker).1, 0) := by
  refine ⟨⟨by decide, Or.inl (by decide)⟩, ?_⟩
  exact claim_C2 (fun _ => true) (fun _ => 0) (fun _ => 1) V5_FILES 0 0 fileRefMarker
    (by decide) (Or.inl (by decide))

/- ### Claim C4: position of the sources-list insertion.

The replacement is `\1\2<entry>`: group 2 is the greedy `[^)]*`, i.e. all
pre-existing entries of the `files` list, so the new reference lands
*after* them, immediately before the list's closing parenthesis — not
immediately after the opening as the claim states. -/

/-- Gap between `{` and `files = (` used in the C4 statements. -/
def c4Gap : List Char := lstr "\n\t\t\t"

/-- Tail closing the files list: `);`. -/
def c4Close : List Char := lstr ");"

theorem pfx_srcL2_false {s : List Char} (h : s.head? ≠ some 'f') :
    pfx srcL2 s = false := by
  rw [show srcL2 = 'f' :: lstr "iles = (" from by decide]
  cases s with
  | nil => rfl
  | cons b bs =>
    have hb : 'f' ≠ b := fun hfb => h (by rw [← hfb]; rfl)
    exact pfx_head_ne hb

theorem head?_append_ne {x y : List Char} {a : Char} (hx : x ≠ [])
    (h : x.head? ≠ some a) : (x ++ y).head? ≠ some a := by
  cases x with
  | nil => exact absurd rfl hx
  | cons c cs => simpa using h

theorem takeWhile_append_all {p : Char → Bool} :
    ∀ {x : List Char}, (∀ c ∈ x, p c = true) →
      ∀ y, (x ++ y).takeWhile p = x ++ y.takeWhile p := by
  intro x
  induction x with
  | nil => intro _ y; rfl
  | cons c cs ih =>
    intro h y
    have hc : p c = true := h c (List.mem_cons_self _ _)
    simp only [List.cons_append, List.takeWhile_cons, hc, if_true]
    rw [ih (fun d hd => h d (List.mem_cons_of_mem _ hd)) y]

/-- Characterization of the backtracking search: it returns `k` when
`srcL2` starts at offset `k` and at no larger offset up to `m`. -/
theorem findLastL2_spec (t : List Char) (k : Nat) :
    ∀ m, k ≤ m → pfx srcL2 (t.drop k) = true →
      (∀ j, k < j → j ≤ m → pfx srcL2 (t.drop j) = false) →
      findLastL2 t m = some k := by
  intro m
  induction m with
  | zero =>
    intro hk hp _
    have : k = 0 := Nat.le_zero.mp hk
    subst this
    simp only [findLastL2]
    rw [if_pos (by simpa using hp)]
  | succ m ih =>
    intro hk hp hnone
    by_cases hkm : k = m + 1
    · subst hkm
      simp only [findLastL2]
      rw [if_pos hp]
    · have hk' : k ≤ m := by omega
      have hfail : pfx srcL2 (t.drop (m + 1)) = false :=
        hnone (m + 1) (by omega) (Nat.le_refl _)
      simp only [findLastL2]
      rw [if_neg (by simp [hfail])]
      exact ih hk' hp (fun j hj hjm => hnone j hj (by omega))

/-- Substitution at a match sitting at the head of the string. -/
theorem sourcesSub_head (ins : List Char) {s : List Char} {n : Nat}
    (h : sourcesMatchLen s = some n) :
    sourcesSub ins s = s.take n ++ ins ++ sourcesSub ins (s.drop n) := by
  cases s with
  | nil => rw [sourcesMatchLen_nil] at h; simp at h
  | cons c cs =>
    have hn : 1 ≤ n := le_trans (by simp [srcL1, lstr]) (sourcesMatchLen_pos h)
    have hlen : ((c :: cs).drop n).length ≤ cs.length := by
      rw [List.length_drop]
      simp only [List.length_cons]
      omega
    show sourcesSubAux ins (c :: cs).length (c :: cs) = _
    simp only [List.length_cons, sourcesSubAux, h]
    rw [sourcesSubAux_eq ins hlen]

/-- The Sources pattern matches the manifest fragment
`/* Sources */ = {<gap>files = (<entries>);` exactly through the entries:
the match length is everything up to (excluding) the closing `)`. -/
theorem c4_matchLen (e : List Char)
    (he : ∀ c ∈ e, c ≠ ')' ∧ c ≠ '\x7d')
    (hocc : occurs srcL2 (e ++ c4Close) = false) :
    sourcesMatchLen (srcL1 ++ c4Gap ++ srcL2 ++ e ++ c4Close)
      = some (srcL1.length + c4Gap.length + srcL2.length + e.length) := by
  have h4 : c4Gap.length = 4 := by decide
  have h9 : srcL2.length = 9 := by decide
  have hc1 : srcL1 ++ c4Gap ++ srcL2 ++ e ++ c4Close
      = srcL1 ++ (c4Gap ++ srcL2 ++ e ++ c4Close) := by
    simp [List.append_assoc]
  have hreg1 : c4Gap ++ srcL2 ++ e ++ c4Close
      = c4Gap ++ (srcL2 ++ (e ++ c4Close)) := by
    simp [List.append_assoc]
  have hreg2 : c4Gap ++ srcL2 ++ e ++ c4Close
      = (c4Gap ++ srcL2) ++ (e ++ c4Close) := by
    simp [List.append_assoc]
  have hpfx : pfx srcL1 (srcL1 ++ c4Gap ++ srcL2 ++ e ++ c4Close) = true := by
    rw [hc1]
    exact pfx_append_self _ _
  have hdrop1 : (srcL1 ++ c4Gap ++ srcL2 ++ e ++ c4Close).drop srcL1.length
      = c4Gap ++ srcL2 ++ e ++ c4Close := by
    rw [hc1]
    exact List.drop_left _ _
  have htw : (c4Gap ++ srcL2 ++ e ++ c4Close).takeWhile (fun c => !(c == '\x7d'))
      = c4Gap ++ srcL2 ++ e ++ c4Close := by
    rw [List.takeWhile_eq_self_iff]
    intro c hc
    simp only [List.append_assoc, List.mem_append] at hc
    rcases hc with hc | hc | hc | hc
    · revert c
      decide
    · revert c
      decide
    · simpa using (he c hc).2
    · revert c
      decide
  have hpk : pfx srcL2 ((c4Gap ++ srcL2 ++ e ++ c4Close).drop c4Gap.length) = true := by
    rw [hreg1, List.drop_left]
    rw [show srcL2 ++ (e ++ c4Close) = srcL2 ++ (e ++ c4Close) from rfl]
    exact pfx_append_self _ _
  have hfin : ∀ i : Fin 9, 1 ≤ i.val → (srcL2.drop i.val).head? ≠ some 'f' := by
    decide
  have hnone : ∀ j, c4Gap.length < j → j ≤ (c4Gap ++ srcL2 ++ e ++ c4Close).length →
      pfx srcL2 ((c4Gap ++ srcL2 ++ e ++ c4Close).drop j) = false := by
    intro j hj1 hj2
    rw [h4] at hj1
    by_cases hj : j ≤ 12
    · obtain ⟨i, rfl⟩ : ∃ i, j = 4 + i := ⟨j - 4, by omega⟩
      have hdj : (c4Gap ++ srcL2 ++ e ++ c4Close).drop (4 + i)
          = srcL2.drop i ++ (e ++ c4Close) := by
        rw [hreg1, show (4 : Nat) + i = c4Gap.length + i from by rw [h4],
          List.drop_append]
        exact List.drop_append_of_le_length (by rw [h9]; omega)
      rw [hdj]
      apply pfx_srcL2_false
      have hlen : (srcL2.drop i).length = 9 - i := by
        rw [List.length_drop, h9]
      apply head?_append_ne
      · intro hnil
        rw [hnil] at hlen
        simp at hlen
        omega
      · exact hfin ⟨i, by omega⟩ (by simp; omega)
    · obtain ⟨m, rfl⟩ : ∃ m, j = 13 + m := ⟨j - 13, by omega⟩
      have h13 : (c4Gap ++ srcL2).length = 13 := by decide
      have hdj : (c4Gap ++ srcL2 ++ e ++ c4Close).drop (13 + m)
          = (e ++ c4Close).drop m := by
        rw [hreg2, show (13 : Nat) + m = (c4Gap ++ srcL2).length + m from by rw [h13],
          List.drop_append]
      rw [hdj]
      by_cases hp : pfx srcL2 ((e ++ c4Close).drop m) = true
      · exact absurd (occurs_of_pfx_drop hp) (by simp [hocc])
      · simpa using hp
  have hfind : findLastL2 (c4Gap ++ srcL2 ++ e ++ c4Close)
      ((c4Gap ++ srcL2 ++ e ++ c4Close).length) = some c4Gap.length := by
    apply findLastL2_spec _ _ _ ?_ hpk hnone
    rw [h4]
    simp only [List.length_append]
    omega
  have hu : (c4Gap ++ srcL2 ++ e ++ c4Close).drop (c4Gap.length + srcL2.length)
      = e ++ c4Close := by
    rw [hreg2]
    exact List.drop_left' (by simp)
  have htw2 : (e ++ c4Close).takeWhile (fun c => !(c == ')')) = e := by
    rw [takeWhile_append_all (fun c hc => by simpa using (he c hc).1) c4Close]
    rw [show c4Close.takeWhile (fun c => !(c == ')')) = [] from by decide]
    simp
  unfold sourcesMatchLen
  rw [if_pos hpfx, hdrop1, htw, hfind]
  simp only [hu, htw2]

/-- Claim C4 corrected: for a files list with pre-existing entries `e`
(entries contain no `)` and no `}`, and the literal `files = (` does not
reappear in them), the new sources-list reference is injected immediately
before the list's closing parenthesis, i.e. *after* all pre-existing
entries — not before them. -/
theorem claim_C4_amended (ins e : List Char)
    (he : ∀ c ∈ e, c ≠ ')' ∧ c ≠ '\x7d')
    (hocc : occurs srcL2 (e ++ c4Close) = false) :
    sourcesSub ins (srcL1 ++ c4Gap ++ srcL2 ++ e ++ c4Close)
      = srcL1 ++ c4Gap ++ srcL2 ++ e ++ ins ++ c4Close := by
  have hn := c4_matchLen e he hocc
  rw [sourcesSub_head ins hn]
  have hpre : (srcL1 ++ c4Gap ++ srcL2 ++ e).length
      = srcL1.length + c4Gap.length + srcL2.length + e.length := by
    simp only [List.length_append]
  have htake : (srcL1 ++ c4Gap ++ srcL2 ++ e ++ c4Close).take
      (srcL1.length + c4Gap.length + srcL2.length + e.length)
      = srcL1 ++ c4Gap ++ srcL2 ++ e := List.take_left' hpre
  have hdropC : (srcL1 ++ c4Gap ++ srcL2 ++ e ++ c4Close).drop
      (srcL1.length + c4Gap.length + srcL2.length + e.length)
      = c4Close := List.drop_left' hpre
  rw [htake, hdropC, sourcesSub_no_match ins c4Close (by decide)]

/-- Pre-existing entry of the files list used in the C4 counterexample
and witness. -/
def c4wEntries : List Char := lstr "\n\t\t\t\tAAAA /* Old.swift in Sources */,"

/-- The reference the script would insert for `V5Config.swift`. -/
def c4wIns : List Char := sourcesIns (generate_uuid 0) (lstr "V5Config.swift")

def c4wContent : List Char := srcL1 ++ c4Gap ++ srcL2 ++ c4wEntries ++ c4Close

/-- What the code produces: the new entry after the existing ones. -/
def c4wActual : List Char := srcL1 ++ c4Gap ++ srcL2 ++ c4wEntries ++ c4wIns ++ c4Close

/-- What claim C4 predicts: the new entry immediately after the list's
opening, before the existing entries. -/
def c4wClaimed : List Char := srcL1 ++ c4Gap ++ srcL2 ++ c4wIns ++ c4wEntries ++ c4Close

/-- Claim C4 as stated is false: on a files list with a pre-existing
entry, the insertion does not land immediately after the list's opening
(before the entries); it lands after them. -/
theorem claim_C4_counterexample :
    sourcesSub c4wIns c4wContent = c4wActual
    ∧ sourcesSub c4wIns c4wContent ≠ c4wClaimed := by
  constructor
  · decide
  · decide

theorem claim_C4_amended_witness :
    ((∀ c ∈ c4wEntries, c ≠ ')' ∧ c ≠ '\x7d')
      ∧ occurs srcL2 (c4wEntries ++ c4Close) = false)
    ∧ sourcesSub c4wIns (srcL1 ++ c4Gap ++ srcL2 ++ c4wEntries ++ c4Close)
      = srcL1 ++ c4Gap ++ srcL2 ++ c4wEntries ++ c4wIns ++ c4Close :=
  ⟨⟨by decide, by decide⟩,
    claim_C4_amended c4wIns c4wEntries (by decide) (by decide)⟩

end XcodePatch
